import Mathlib

/-!
Shallow embedding of the `lub` bitset library (src/bitset/bitset.c).

Words are `unsigned int`, modelled as `Nat` values; `BITS_PER_INDEX` is the
bit width of `unsigned int` (32 on the supported targets).  The C storage
`unsigned int *map` of `map_length` words is modelled as `Option (List Nat)`:
`none` is a NULL map pointer, and the list length plays the role of the
`map_length` field (the code keeps `map_length` equal to the allocated word
count on every path).  A possibly-NULL `struct bitset *` handle is
`Option bitset`.

Mutating entry points return the post-state of the handle together with the
reported error (`none` = return value 0, `some e` = return value 1 with
`errno = e`).  Paths on which the C code indexes `map` outside the allocated
`map_length` words are undefined behavior in C; the embedding totalizes them
as an outer `Option`, returning `none` exactly on such an out-of-bounds
access.  Indeterminate freshly-allocated memory (`malloc`/`realloc` tails)
is modelled by an explicit `raw : Nat → Nat` oracle supplying the contents.
-/

namespace Lub

/-- Bit width of one storage word (`sizeof(unsigned int) * 8`). -/
def BITS_PER_INDEX : Nat := 32

/-- errno values the library reports. -/
inductive Err where
  | EINVAL
  | ERANGE
  | ENOMEM
deriving Repr, DecidableEq

/-- Embedding of `struct bitset`: logical bit length plus the storage map.
`map = none` models a NULL `map` pointer; the list length models the
`map_length` field. -/
structure bitset where
  length : Nat
  map : Option (List Nat)
deriving Repr, DecidableEq

/-- Number of storage words (the `map_length` field; 0 when `map` is NULL,
matching `bitset_free`). -/
def bitset.word_count (s : bitset) : Nat := (s.map.getD []).length

/-- Bitwise complement of a word of an `unsigned int` (`~b`). -/
def wnot (b : Nat) : Nat := b ^^^ (2 ^ BITS_PER_INDEX - 1)

/-- Merge operator `a & b`. -/
def bitset_merge_and (a b : Nat) : Nat := a &&& b

/-- Merge operator `a & ~b`. -/
def bitset_merge_andn (a b : Nat) : Nat := a &&& wnot b

/-- Merge operator `a | b`. -/
def bitset_merge_or (a b : Nat) : Nat := a ||| b

/-- Merge operator `a ^ b`. -/
def bitset_merge_xor (a b : Nat) : Nat := a ^^^ b

/-- Merge operator `~a` (second operand ignored). -/
def bitset_merge_not (a b : Nat) : Nat := wnot a

/-- Function `bitset_map_size`: storage words needed for a given bit count,
`(bitset_size + BITS_PER_INDEX - 1) / BITS_PER_INDEX`. -/
def bitset_map_size (bitset_size : Nat) : Nat :=
  (bitset_size + BITS_PER_INDEX - 1) / BITS_PER_INDEX

/-- Function `bitset_malloc` (allocation-success path): a fresh bitset of the given
length whose `bitset_map_size length` storage words hold the indeterminate
contents `raw 0, raw 1, ...` (`malloc` does not initialize). -/
def bitset_malloc (length : Nat) (raw : Nat → Nat) : bitset :=
  { length := length
  , map := some ((List.range (bitset_map_size length)).map raw) }

/-- Function `bitset_dup` (allocation-success path): NULL handle or NULL map gives
`EINVAL`; otherwise `bitset_malloc (set->length)` followed by a `memcpy` of
`set->map_length` words into the fresh buffer.  If the source word count
exceeded the fresh buffer the `memcpy` would overrun it (undefined
behavior, outer `none`); words of the fresh buffer beyond the copied ones
keep their indeterminate contents. -/
def bitset_dup (set : Option bitset) (raw : Nat → Nat) :
    Option (Option bitset × Option Err) :=
  match set with
  | none => some (none, some .EINVAL)
  | some s =>
    match s.map with
    | none => some (none, some .EINVAL)
    | some m =>
      let nb := bitset_malloc s.length raw
      let fresh := nb.map.getD []
      if fresh.length < m.length then
        none
      else
        some (some { length := s.length, map := some (m ++ fresh.drop m.length) }, none)

/-- Function `bitset_resize`: `allocOk` tells whether the `realloc` (when one is
needed) succeeds; `raw` supplies the indeterminate contents of any words the
`realloc` adds.  With an equal word count only `length` is updated; on
`realloc` failure the set is returned unchanged with `ENOMEM`. -/
def bitset_resize (set : Option bitset) (length : Nat) (allocOk : Bool)
    (raw : Nat → Nat) : Option bitset × Option Err :=
  match set with
  | none => (none, some .EINVAL)
  | some s =>
    match s.map with
    | none => (some s, some .EINVAL)
    | some m =>
      let new_map_length := bitset_map_size length
      if new_map_length = m.length then
        (some { s with length := length }, none)
      else if allocOk then
        (some { length := length
              , map := some (m.take new_map_length ++
                  ((List.range new_map_length).map raw).drop m.length) }, none)
      else
        (some s, some .ENOMEM)

/-- Function `bitset_update`: common body of the single-bit mutations.  The bounds
check is `set->length >= bit`; inside it the word `map[bit / BITS_PER_INDEX]`
is combined with the mask `1 << (bit % BITS_PER_INDEX)` by `fn`.  An access
outside the allocated words is undefined behavior (`none`). -/
def bitset_update (set : Option bitset) (bit : Nat) (fn : Nat → Nat → Nat) :
    Option (Option bitset × Option Err) :=
  let index := bit / BITS_PER_INDEX
  let offset := bit % BITS_PER_INDEX
  match set with
  | none => some (none, some .EINVAL)
  | some s =>
    match s.map with
    | none => some (some s, some .EINVAL)
    | some m =>
      if s.length ≥ bit then
        match m[index]? with
        | none => none
        | some w =>
          some (some { s with map := some (m.set index (fn w (1 <<< offset))) }, none)
      else
        some (some s, some .ERANGE)

/-- Wrapper `bitset_set`. -/
def bitset_set (set : Option bitset) (bit : Nat) :
    Option (Option bitset × Option Err) :=
  bitset_update set bit bitset_merge_or

/-- Wrapper `bitset_reset`. -/
def bitset_reset (set : Option bitset) (bit : Nat) :
    Option (Option bitset × Option Err) :=
  bitset_update set bit bitset_merge_andn

/-- Wrapper `bitset_toggle`. -/
def bitset_toggle (set : Option bitset) (bit : Nat) :
    Option (Option bitset × Option Err) :=
  bitset_update set bit bitset_merge_xor

/-- Function `bitset_merge`: common body of the whole-set operators.  Merges the
first `min (dst->map_length) (src->map_length)` words of `dst` with the
corresponding words of `src` in index order, leaving the rest of `dst`
untouched.  (Passing the same set as both operands — as `bitset_not`
does — reads each word before overwriting it, so the word-wise combination
of the old values is still what is stored.) -/
def bitset_merge (dst src : Option bitset) (fn : Nat → Nat → Nat) :
    Option bitset × Option Err :=
  match dst, src with
  | some d, some s =>
    match d.map, s.map with
    | some dm, some sm =>
      (some { d with map := some (List.zipWith fn dm sm ++
          dm.drop (min dm.length sm.length)) }, none)
    | _, _ => (dst, some .EINVAL)
  | _, _ => (dst, some .EINVAL)

/-- Wrapper `bitset_and`. -/
def bitset_and (dst src : Option bitset) : Option bitset × Option Err :=
  bitset_merge dst src bitset_merge_and

/-- Wrapper `bitset_or`. -/
def bitset_or (dst src : Option bitset) : Option bitset × Option Err :=
  bitset_merge dst src bitset_merge_or

/-- Wrapper `bitset_xor`. -/
def bitset_xor (dst src : Option bitset) : Option bitset × Option Err :=
  bitset_merge dst src bitset_merge_xor

/-- Wrapper `bitset_andn`. -/
def bitset_andn (dst src : Option bitset) : Option bitset × Option Err :=
  bitset_merge dst src bitset_merge_andn

/-- Wrapper `bitset_not`: the one set passed as both operands of the merge. -/
def bitset_not (dst : Option bitset) : Option bitset × Option Err :=
  bitset_merge dst dst bitset_merge_not

/-- Function `bitset_clear`: `memset(set->map, 0, map_length * sizeof(unsigned int))`. -/
def bitset_clear (set : Option bitset) : Option bitset × Option Err :=
  match set with
  | none => (none, some .EINVAL)
  | some s =>
    match s.map with
    | none => (some s, some .EINVAL)
    | some m => (some { s with map := some (List.replicate m.length 0) }, none)

/-- Function `bitset_test`: writes `!!(map[bit / BITS_PER_INDEX] & (1 << offset))`
through the `value` pointer (`valuep` models whether that pointer is
non-NULL; the written value is the `Nat` in the result).  There is no
bounds check of `bit` against `length`; reading outside the allocated words
is undefined behavior (`none`). -/
def bitset_test (set : Option bitset) (bit : Nat) (valuep : Bool) :
    Option (Option Nat × Option Err) :=
  let index := bit / BITS_PER_INDEX
  let offset := bit % BITS_PER_INDEX
  match set, valuep with
  | none, _ => some (none, some .EINVAL)
  | some _, false => some (none, some .EINVAL)
  | some s, true =>
    match s.map with
    | none => some (none, some .EINVAL)
    | some m =>
      match m[index]? with
      | none => none
      | some w => some (some (if w &&& (1 <<< offset) ≠ 0 then 1 else 0), none)

/-- Value of bit `bit` of a storage map (word `bit / BITS_PER_INDEX`, bit
`bit % BITS_PER_INDEX`; reads 0-words beyond the map). -/
def bitVal (m : List Nat) (bit : Nat) : Bool :=
  Nat.testBit (m.getD (bit / BITS_PER_INDEX) 0) (bit % BITS_PER_INDEX)

/-- A handle that is NULL or has a NULL storage map. -/
def noStorage (o : Option bitset) : Prop :=
  o = none ∨ ∃ t : bitset, o = some t ∧ t.map = none

/-! Helper lemmas shared by the claim theorems. -/

theorem div_lt_map_size {bit L : Nat} (h : bit < L) :
    bit / BITS_PER_INDEX < bitset_map_size L := by
  simp only [bitset_map_size, BITS_PER_INDEX]
  omega

theorem map_size_le_iff (n k : Nat) :
    bitset_map_size n ≤ k ↔ n ≤ k * BITS_PER_INDEX := by
  simp only [bitset_map_size, BITS_PER_INDEX]
  omega

theorem test_value_formula (w off : Nat) :
    (if w &&& (1 <<< off) ≠ 0 then (1 : Nat) else 0) = (w >>> off) &&& 1 := by
  rw [Nat.shiftLeft_eq, Nat.one_mul, Nat.and_one_is_mod, Nat.shiftRight_eq_div_pow,
    Nat.and_two_pow]
  have ht : Nat.testBit w off = decide (w / 2 ^ off % 2 = 1) := Nat.testBit_to_div_mod
  have hm2 : w / 2 ^ off % 2 < 2 := Nat.mod_lt _ (by decide)
  cases hb : Nat.testBit w off with
  | false =>
    rw [hb] at ht
    simp only [hb, Bool.toNat_false, Nat.zero_mul, ne_eq, not_true_eq_false,
      if_false]
    have : ¬ (w / 2 ^ off % 2 = 1) := by
      intro hc
      rw [hc] at ht
      simp at ht
    omega
  | true =>
    rw [hb] at ht
    have h1 : w / 2 ^ off % 2 = 1 := by
      by_contra hc
      rw [decide_eq_false hc] at ht
      simp at ht
    have hp : (0 : Nat) < 2 ^ off := Nat.pos_pow_of_pos off (by decide)
    simp only [hb, Bool.toNat_true, Nat.one_mul, ne_eq]
    rw [if_pos (by omega)]
    omega

theorem getD_of_getElem? {m : List Nat} {i : Nat} (h : i < m.length) :
    m[i]? = some (m.getD i 0) := by
  rw [List.getD_eq_getElem?_getD, List.getElem?_eq_getElem h]
  rfl

/-- Shape of a successful `bitset_update`: within bounds of both the check
and the storage, the indexed word is combined with the mask `2 ^ offset`. -/
theorem bitset_update_spec (s : bitset) (m : List Nat) (bit w : Nat)
    (fn : Nat → Nat → Nat) (hm : s.map = some m) (hbit : bit ≤ s.length)
    (hw : m[bit / BITS_PER_INDEX]? = some w) :
    bitset_update (some s) bit fn =
      some (some ⟨s.length, some (m.set (bit / BITS_PER_INDEX)
        (fn w (2 ^ (bit % BITS_PER_INDEX))))⟩, none) := by
  simp only [bitset_update, hm, ge_iff_le, hbit, if_true, hw, Nat.shiftLeft_eq,
    Nat.one_mul]

/-- Contents of a successful duplicate: word-for-word copy of the source
map (given the source satisfies the word-count invariant). -/
theorem bitset_dup_eq (s : bitset) (m : List Nat) (raw : Nat → Nat)
    (hm : s.map = some m) (hinv : m.length = bitset_map_size s.length) :
    bitset_dup (some s) raw = some (some ⟨s.length, some m⟩, none) := by
  have hf : ((List.range (bitset_map_size s.length)).map raw).length
      = m.length := by
    rw [List.length_map, List.length_range, hinv]
  simp only [bitset_dup, hm, bitset_malloc, Option.getD_some]
  rw [if_neg (by omega)]
  rw [List.drop_eq_nil_of_le (by omega), List.append_nil]

/-! Claim theorems. -/

/-- C1: the claim asks for a strict bounds check (`bit < length`, with
`bit == length` out of range, failing with `OutOfRange` and leaving the set
unchanged).  The code tests `set->length >= bit`, so `bit == length` is
accepted: on a length-1 set each of set/reset/toggle at bit 1 succeeds and
rewrites the word (touching the padding bit) instead of failing; only
`bit > length` fails with `ERANGE` and leaves the set unchanged. -/
theorem C1_nonstrict_bound_eval :
    bitset_set (some ⟨1, some [0]⟩) 1 = some (some ⟨1, some [2]⟩, none) ∧
    bitset_reset (some ⟨1, some [3]⟩) 1 = some (some ⟨1, some [1]⟩, none) ∧
    bitset_toggle (some ⟨1, some [0]⟩) 1 = some (some ⟨1, some [2]⟩, none) ∧
    bitset_set (some ⟨1, some [0]⟩) 2
      = some (some ⟨1, some [0]⟩, some Err.ERANGE) := by
  refine ⟨rfl, ?_, rfl, rfl⟩
  decide

/-- C2: the claim says after `create(0)` every `set_bit` and every
`test_bit` fails with `OutOfRange`.  In the code, `set_bit 0` passes the
`length >= bit` check and accesses word 0 of the zero-word map (undefined
behavior, modelled `none`); `test_bit` has no range check at all and reads
word `bit / BITS_PER_INDEX` of the zero-word map for every `bit` (undefined
behavior), so it never reports `ERANGE`. -/
theorem C2_create_zero_eval :
    (∀ raw : Nat → Nat, bitset_malloc 0 raw = ⟨0, some []⟩) ∧
    bitset_set (some ⟨0, some []⟩) 0 = none ∧
    (∀ bit : Nat, bit ≠ 0 →
      bitset_set (some ⟨0, some []⟩) bit
        = some (some ⟨0, some []⟩, some Err.ERANGE)) ∧
    (∀ bit : Nat, bitset_test (some ⟨0, some []⟩) bit true = none) := by
  refine ⟨fun raw => rfl, rfl, ?_, ?_⟩
  · intro bit hb
    simp only [bitset_set, bitset_update, ge_iff_le]
    rw [if_neg (by omega)]
  · intro bit
    simp [bitset_test]

/-- C10: the claim says a single-bit operation that returns success only
accessed a storage word inside the allocated buffer.  In the code
`bitset_test` performs no bounds check and `bitset_update` accepts
`bit == length`: on a length-1 one-word set, `test_bit 32` returns success
in C after reading word 1 of the 1-word buffer, and on a length-32 one-word
set `set_bit 32` passes the `length >= bit` check and writes word 1 of the
1-word buffer.  The embedding totalizes both accesses as the
undefined-behavior marker `none`, reached from the success path of the
checks. -/
theorem C10_success_oob_eval :
    bitset_test (some ⟨1, some [0]⟩) 32 true = none ∧
    bitset_set (some ⟨32, some [0]⟩) 32 = none := ⟨rfl, rfl⟩

/-- C3: `bitset_test` fails with `EINVAL` exactly when the handle, its map,
or the output pointer is NULL; otherwise (for an index that stays inside
the allocated words) it succeeds and the written value is
`(map[bit / BITS_PER_INDEX] >> (bit % BITS_PER_INDEX)) & 1`.  No range
check of `bit` against `length` is made: no relation between `bit` and
`s.length` is assumed here. -/
theorem C3_test_spec (s : bitset) (m : List Nat) (bit : Nat)
    (hm : s.map = some m) (hidx : bit / BITS_PER_INDEX < m.length) :
    bitset_test none bit true = some (none, some Err.EINVAL) ∧
    (∀ o : Option bitset, bitset_test o bit false
      = some (none, some Err.EINVAL)) ∧
    (∀ t : bitset, t.map = none →
      bitset_test (some t) bit true = some (none, some Err.EINVAL)) ∧
    bitset_test (some s) bit true =
      some (some ((m.getD (bit / BITS_PER_INDEX) 0 >>> (bit % BITS_PER_INDEX))
        &&& 1), none) := by
  refine ⟨rfl, fun o => by cases o <;> rfl,
    fun t ht => by simp [bitset_test, ht], ?_⟩
  have hw := getD_of_getElem? hidx
  simp only [bitset_test, hm, hw]
  rw [test_value_formula]

/-- C3 witness: on the set of length 1 with word 2, querying bit 1 (which
is not below `length`, showing the absence of a range check) succeeds and
writes 1. -/
theorem C3_test_spec_witness :
    bitset_test none 1 true = some (none, some Err.EINVAL) ∧
    (∀ o : Option bitset, bitset_test o 1 false
      = some (none, some Err.EINVAL)) ∧
    (∀ t : bitset, t.map = none →
      bitset_test (some t) 1 true = some (none, some Err.EINVAL)) ∧
    bitset_test (some ⟨1, some [2]⟩) 1 true =
      some (some (([2].getD (1 / BITS_PER_INDEX) 0 >>> (1 % BITS_PER_INDEX))
        &&& 1), none) :=
  C3_test_spec ⟨1, some [2]⟩ [2] 1 rfl (by decide)

/-- C9: `bitset_clear` on a set with storage succeeds and replaces all
`map_length` words (padding included) by 0, after which every bit of the
set tests as 0; a NULL handle or NULL map fails with `EINVAL`. -/
theorem C9_clear_spec (s : bitset) (m : List Nat) (hm : s.map = some m) :
    bitset_clear (some s)
      = (some ⟨s.length, some (List.replicate m.length 0)⟩, none) ∧
    (∀ i, i < m.length → (List.replicate m.length (0 : Nat))[i]? = some 0) ∧
    (∀ bit, bitVal (List.replicate m.length 0) bit = false) ∧
    bitset_clear none = (none, some Err.EINVAL) ∧
    (∀ t : bitset, t.map = none →
      bitset_clear (some t) = (some t, some Err.EINVAL)) := by
  refine ⟨by simp [bitset_clear, hm], fun i hi => by simp [hi], ?_, rfl,
    fun t ht => by simp [bitset_clear, ht]⟩
  intro bit
  simp [bitVal, List.getElem?_replicate]
  split <;> simp

/-- C9 witness: clearing the length-33 set with words [5, 7]. -/
theorem C9_clear_spec_witness :
    bitset_clear (some ⟨33, some [5, 7]⟩)
      = (some ⟨33, some (List.replicate 2 0)⟩, none) ∧
    (∀ i, i < 2 → (List.replicate 2 (0 : Nat))[i]? = some 0) ∧
    (∀ bit, bitVal (List.replicate 2 0) bit = false) ∧
    bitset_clear none = (none, some Err.EINVAL) ∧
    (∀ t : bitset, t.map = none →
      bitset_clear (some t) = (some t, some Err.EINVAL)) :=
  C9_clear_spec ⟨33, some [5, 7]⟩ [5, 7] rfl

/-- Specification of a successful merge into `d` (whose map was `dm`)
against source map `sm`: success, the result map has the word count of `dm`,
each word of the shared prefix is `fn` of the operand words, and every word
beyond the shared prefix is the old word of `d`. -/
def mergeOK (fn : Nat → Nat → Nat) (d : bitset) (dm sm : List Nat)
    (r : Option bitset × Option Err) : Prop :=
  ∃ m2 : List Nat,
    r = (some ⟨d.length, some m2⟩, none) ∧
    m2.length = dm.length ∧
    (∀ (i a b : Nat), dm[i]? = some a → sm[i]? = some b →
      m2[i]? = some (fn a b)) ∧
    (∀ i : Nat, min dm.length sm.length ≤ i → m2[i]? = dm[i]?)

theorem lt_length_of_getElem? {m : List Nat} {i : Nat} {a : Nat}
    (h : m[i]? = some a) : i < m.length := by
  by_contra hc
  rw [List.getElem?_eq_none (by omega)] at h
  cases h

theorem merge_ok (fn : Nat → Nat → Nat) (d s : bitset) (dm sm : List Nat)
    (hd : d.map = some dm) (hs : s.map = some sm) :
    mergeOK fn d dm sm (bitset_merge (some d) (some s) fn) := by
  refine ⟨List.zipWith fn dm sm ++ dm.drop (min dm.length sm.length),
    by simp [bitset_merge, hd, hs], ?_, ?_, ?_⟩
  · rw [List.length_append, List.length_zipWith, List.length_drop]
    omega
  · intro i a b ha hb
    have hia := lt_length_of_getElem? ha
    have hib := lt_length_of_getElem? hb
    rw [List.getElem?_append_left (by rw [List.length_zipWith]; omega),
      List.getElem?_zipWith, ha, hb]
  · intro i hi
    rw [List.getElem?_append_right (by rw [List.length_zipWith]; exact hi),
      List.length_zipWith, List.getElem?_drop]
    congr 1
    omega

/-- C4: with both operands present and backed by storage, each merge
operation (AND, OR, XOR, AND-NOT, and NOT with the one set as both
operands) succeeds, combines exactly the first
`min (word_count dst) (word_count src)` words of `dst` with the
corresponding words of `src` using its word function (`a & b`, `a | b`,
`a ^ b`, `a & ~b`, `~a`), and leaves every word of `dst` beyond that shared
prefix unchanged; an absent operand or one without storage fails with
`EINVAL`. -/
theorem C4_merge_ops (d s : bitset) (dm sm : List Nat)
    (hd : d.map = some dm) (hs : s.map = some sm) :
    mergeOK (fun a b => a &&& b) d dm sm (bitset_and (some d) (some s)) ∧
    mergeOK (fun a b => a ||| b) d dm sm (bitset_or (some d) (some s)) ∧
    mergeOK (fun a b => a ^^^ b) d dm sm (bitset_xor (some d) (some s)) ∧
    mergeOK (fun a b => a &&& wnot b) d dm sm
      (bitset_andn (some d) (some s)) ∧
    mergeOK (fun a b => wnot a) d dm dm (bitset_not (some d)) ∧
    (∀ dst src fn, noStorage dst ∨ noStorage src →
      bitset_merge dst src fn = (dst, some Err.EINVAL)) := by
  refine ⟨merge_ok bitset_merge_and d s dm sm hd hs,
    merge_ok bitset_merge_or d s dm sm hd hs,
    merge_ok bitset_merge_xor d s dm sm hd hs,
    merge_ok bitset_merge_andn d s dm sm hd hs,
    merge_ok bitset_merge_not d d dm dm hd hd, ?_⟩
  intro dst src fn h
  rcases h with (rfl | ⟨t, rfl, ht⟩) | (rfl | ⟨t, rfl, ht⟩)
  · cases src <;> rfl
  · cases src with
    | none => rfl
    | some u => cases hu : u.map <;> simp [bitset_merge, ht, hu]
  · cases dst <;> rfl
  · cases dst with
    | none => rfl
    | some u => cases hu : u.map <;> simp [bitset_merge, ht, hu]

/-- C4 witness: merging the two-word set [12, 10] (length 64) with the
one-word set [10] (length 32). -/
theorem C4_merge_ops_witness :
    mergeOK (fun a b => a &&& b) ⟨64, some [12, 10]⟩ [12, 10] [10]
      (bitset_and (some ⟨64, some [12, 10]⟩) (some ⟨32, some [10]⟩)) ∧
    mergeOK (fun a b => a ||| b) ⟨64, some [12, 10]⟩ [12, 10] [10]
      (bitset_or (some ⟨64, some [12, 10]⟩) (some ⟨32, some [10]⟩)) ∧
    mergeOK (fun a b => a ^^^ b) ⟨64, some [12, 10]⟩ [12, 10] [10]
      (bitset_xor (some ⟨64, some [12, 10]⟩) (some ⟨32, some [10]⟩)) ∧
    mergeOK (fun a b => a &&& wnot b) ⟨64, some [12, 10]⟩ [12, 10] [10]
      (bitset_andn (some ⟨64, some [12, 10]⟩) (some ⟨32, some [10]⟩)) ∧
    mergeOK (fun a b => wnot a) ⟨64, some [12, 10]⟩ [12, 10] [12, 10]
      (bitset_not (some ⟨64, some [12, 10]⟩)) ∧
    (∀ dst src fn, noStorage dst ∨ noStorage src →
      bitset_merge dst src fn = (dst, some Err.EINVAL)) :=
  C4_merge_ops ⟨64, some [12, 10]⟩ ⟨32, some [10]⟩ [12, 10] [10] rfl rfl

/-- C5: resize is atomic.  When the new word count equals the old one, only
`length` is updated — the storage is the very same word list, so every bit
below the old length is untouched and no reallocation happens (the outcome
does not depend on `allocOk`).  When the word count differs and the
reallocation fails, the call reports `ENOMEM` and returns the original
bitset fully intact.  On any successful resize the new length is the
requested one and every bit below `min old_length new_length` keeps its
prior value. -/
theorem C5_resize_atomic (s : bitset) (m : List Nat) (n : Nat)
    (raw : Nat → Nat) (hm : s.map = some m)
    (hinv : m.length = bitset_map_size s.length) :
    (bitset_map_size n = m.length → ∀ allocOk,
      bitset_resize (some s) n allocOk raw = (some ⟨n, some m⟩, none)) ∧
    (bitset_map_size n ≠ m.length →
      bitset_resize (some s) n false raw = (some s, some Err.ENOMEM)) ∧
    (∀ allocOk s2, bitset_resize (some s) n allocOk raw = (some s2, none) →
      s2.length = n ∧ ∃ m2 : List Nat, s2.map = some m2 ∧
        ∀ bit : Nat, bit < min s.length n → bitVal m2 bit = bitVal m bit) := by
  refine ⟨fun h allocOk => by simp [bitset_resize, hm, h], fun h => by
    simp only [bitset_resize, hm]
    rw [if_neg h, if_neg (by simp)], ?_⟩
  intro allocOk s2 hres
  simp only [bitset_resize, hm] at hres
  by_cases hc : bitset_map_size n = m.length
  · rw [if_pos hc] at hres
    obtain ⟨rfl⟩ : s2 = ⟨n, some m⟩ := by
      cases hres
      rfl
    exact ⟨rfl, m, rfl, fun bit hb => rfl⟩
  · rw [if_neg hc] at hres
    cases allocOk with
    | false => simp at hres
    | true =>
      simp only [if_true] at hres
      obtain ⟨rfl⟩ : s2 = ⟨n, some (m.take (bitset_map_size n) ++
          ((List.range (bitset_map_size n)).map raw).drop m.length)⟩ := by
        cases hres
        rfl
      refine ⟨rfl, _, rfl, fun bit hb => ?_⟩
      have h1 : bit / BITS_PER_INDEX < m.length := by
        rw [hinv]
        exact div_lt_map_size (by omega)
      have h2 : bit / BITS_PER_INDEX < bitset_map_size n :=
        div_lt_map_size (by omega)
      have hget : (m.take (bitset_map_size n) ++
          ((List.range (bitset_map_size n)).map raw).drop
            m.length)[bit / BITS_PER_INDEX]?
          = m[bit / BITS_PER_INDEX]? := by
        rw [List.getElem?_append_left (by rw [List.length_take]; omega),
          List.getElem?_take_of_lt h2]
      simp only [bitVal, List.getD_eq_getElem?_getD, hget]

/-- C5 witness: growing the one-word length-32 set [5] to length 33 (a new
word count), with the fresh word of the reallocation supplied by the oracle. -/
theorem C5_resize_atomic_witness :
    (bitset_map_size 33 = [5].length → ∀ allocOk,
      bitset_resize (some ⟨32, some [5]⟩) 33 allocOk (fun i => 90 + i)
        = (some ⟨33, some [5]⟩, none)) ∧
    (bitset_map_size 33 ≠ [5].length →
      bitset_resize (some ⟨32, some [5]⟩) 33 false (fun i => 90 + i)
        = (some ⟨32, some [5]⟩, some Err.ENOMEM)) ∧
    (∀ allocOk s2,
      bitset_resize (some ⟨32, some [5]⟩) 33 allocOk (fun i => 90 + i)
        = (some s2, none) →
      s2.length = 33 ∧ ∃ m2 : List Nat, s2.map = some m2 ∧
        ∀ bit : Nat, bit < min 32 33 → bitVal m2 bit = bitVal [5] bit) :=
  C5_resize_atomic ⟨32, some [5]⟩ [5] 33 (fun i => 90 + i) rfl (by decide)

/-- C6: duplicating a set with storage yields a new bitset of the same
length whose storage words equal the original word-for-word (all
`map_length` words, padding included); a NULL handle or NULL map fails
with `EINVAL`.  Storage independence holds by construction: the duplicate
is built from a fresh allocation filled by `memcpy`, which the embedding
renders as a new list value, so no later mutation of either set can be
seen through the other. -/
theorem C6_dup_spec (s : bitset) (m : List Nat) (raw : Nat → Nat)
    (hm : s.map = some m) (hinv : m.length = bitset_map_size s.length) :
    bitset_dup (some s) raw = some (some ⟨s.length, some m⟩, none) ∧
    bitset_dup none raw = some (none, some Err.EINVAL) ∧
    (∀ t : bitset, t.map = none →
      bitset_dup (some t) raw = some (none, some Err.EINVAL)) :=
  ⟨bitset_dup_eq s m raw hm hinv, rfl,
    fun t ht => by simp [bitset_dup, ht]⟩

/-- C6 witness: duplicating the length-33 set with words [5, 7]; the
oracle value 99 never appears because all allocated words are copied. -/
theorem C6_dup_spec_witness :
    bitset_dup (some ⟨33, some [5, 7]⟩) (fun _ => 99)
      = some (some ⟨33, some [5, 7]⟩, none) ∧
    bitset_dup none (fun _ => 99) = some (none, some Err.EINVAL) ∧
    (∀ t : bitset, t.map = none →
      bitset_dup (some t) (fun _ => 99) = some (none, some Err.EINVAL)) :=
  C6_dup_spec ⟨33, some [5, 7]⟩ [5, 7] (fun _ => 99) rfl (by decide)

/-- C7: on a set with storage and an in-range bit (`bit < length`),
`set_bit` succeeds leaving the bit at 1 and is idempotent (a second
application returns the identical state), and it leaves every other bit
unchanged; `reset_bit` succeeds leaving the bit at 0 and is idempotent;
`toggle_bit` applied twice restores the original value of the bit. -/
theorem C7_single_bit_algebra (s : bitset) (m : List Nat) (bit : Nat)
    (hm : s.map = some m) (hinv : m.length = bitset_map_size s.length)
    (hb : bit < s.length) :
    ∃ ms mr mt mtt : List Nat,
      bitset_set (some s) bit = some (some ⟨s.length, some ms⟩, none) ∧
      bitVal ms bit = true ∧
      bitset_set (some ⟨s.length, some ms⟩) bit
        = some (some ⟨s.length, some ms⟩, none) ∧
      (∀ b2 : Nat, b2 ≠ bit → bitVal ms b2 = bitVal m b2) ∧
      bitset_reset (some s) bit = some (some ⟨s.length, some mr⟩, none) ∧
      bitVal mr bit = false ∧
      bitset_reset (some ⟨s.length, some mr⟩) bit
        = some (some ⟨s.length, some mr⟩, none) ∧
      bitset_toggle (some s) bit = some (some ⟨s.length, some mt⟩, none) ∧
      bitset_toggle (some ⟨s.length, some mt⟩) bit
        = some (some ⟨s.length, some mtt⟩, none) ∧
      bitVal mtt bit = bitVal m bit := by
  have hble : bit ≤ s.length := Nat.le_of_lt hb
  have hidx : bit / BITS_PER_INDEX < m.length := by
    rw [hinv]
    exact div_lt_map_size hb
  have hoff : bit % BITS_PER_INDEX < BITS_PER_INDEX := Nat.mod_lt bit (by decide)
  obtain ⟨w, hw⟩ : ∃ w : Nat, m[bit / BITS_PER_INDEX]? = some w :=
    ⟨m.getD (bit / BITS_PER_INDEX) 0, getD_of_getElem? hidx⟩
  refine ⟨m.set (bit / BITS_PER_INDEX) (w ||| 2 ^ (bit % BITS_PER_INDEX)),
    m.set (bit / BITS_PER_INDEX) (w &&& wnot (2 ^ (bit % BITS_PER_INDEX))),
    m.set (bit / BITS_PER_INDEX) (w ^^^ 2 ^ (bit % BITS_PER_INDEX)),
    (m.set (bit / BITS_PER_INDEX) (w ^^^ 2 ^ (bit % BITS_PER_INDEX))).set
      (bit / BITS_PER_INDEX) w,
    ?_, ?_, ?_, ?_, ?_, ?_, ?_, ?_, ?_, ?_⟩
  · exact bitset_update_spec s m bit w bitset_merge_or hm hble hw
  · have hset := List.getElem?_set_eq_of_lt
      (w ||| 2 ^ (bit % BITS_PER_INDEX)) hidx
    simp only [bitVal, List.getD_eq_getElem?_getD, hset, Option.getD_some]
    simp [Nat.testBit_or, Nat.testBit_two_pow_self]
  · have hset := List.getElem?_set_eq_of_lt
      (w ||| 2 ^ (bit % BITS_PER_INDEX)) hidx
    have h2 := bitset_update_spec
      ⟨s.length, some (m.set (bit / BITS_PER_INDEX)
        (w ||| 2 ^ (bit % BITS_PER_INDEX)))⟩
      (m.set (bit / BITS_PER_INDEX) (w ||| 2 ^ (bit % BITS_PER_INDEX)))
      bit (w ||| 2 ^ (bit % BITS_PER_INDEX)) bitset_merge_or rfl hble hset
    simp only [bitset_set]
    rw [h2]
    simp only [bitset_merge_or]
    rw [Nat.or_assoc, Nat.or_self, List.set_set]
  · intro b2 hb2
    by_cases hsame : b2 / BITS_PER_INDEX = bit / BITS_PER_INDEX
    · have hoffne : bit % BITS_PER_INDEX ≠ b2 % BITS_PER_INDEX := by
        intro he
        apply hb2
        have e1 := Nat.div_add_mod b2 BITS_PER_INDEX
        have e2 := Nat.div_add_mod bit BITS_PER_INDEX
        rw [hsame] at e1
        omega
      have hset := List.getElem?_set_eq_of_lt
        (w ||| 2 ^ (bit % BITS_PER_INDEX)) hidx
      simp only [bitVal, List.getD_eq_getElem?_getD, hsame, hset, hw,
        Option.getD_some]
      simp [Nat.testBit_or, Nat.testBit_two_pow_of_ne hoffne]
    · have hne : (m.set (bit / BITS_PER_INDEX)
          (w ||| 2 ^ (bit % BITS_PER_INDEX)))[b2 / BITS_PER_INDEX]?
          = m[b2 / BITS_PER_INDEX]? :=
        List.getElem?_set_ne (fun he => hsame he.symm)
      simp only [bitVal, List.getD_eq_getElem?_getD, hne]
  · exact bitset_update_spec s m bit w bitset_merge_andn hm hble hw
  · have hset := List.getElem?_set_eq_of_lt
      (w &&& wnot (2 ^ (bit % BITS_PER_INDEX))) hidx
    have hones : Nat.testBit (2 ^ BITS_PER_INDEX - 1) (bit % BITS_PER_INDEX)
        = true := by
      rw [Nat.testBit_two_pow_sub_one]
      simpa using hoff
    simp only [bitVal, List.getD_eq_getElem?_getD, hset, Option.getD_some]
    simp [wnot, Nat.testBit_and, Nat.testBit_xor, Nat.testBit_two_pow_self,
      hones]
  · have hset := List.getElem?_set_eq_of_lt
      (w &&& wnot (2 ^ (bit % BITS_PER_INDEX))) hidx
    have h2 := bitset_update_spec
      ⟨s.length, some (m.set (bit / BITS_PER_INDEX)
        (w &&& wnot (2 ^ (bit % BITS_PER_INDEX))))⟩
      (m.set (bit / BITS_PER_INDEX) (w &&& wnot (2 ^ (bit % BITS_PER_INDEX))))
      bit (w &&& wnot (2 ^ (bit % BITS_PER_INDEX))) bitset_merge_andn rfl hble
      hset
    simp only [bitset_reset]
    rw [h2]
    simp only [bitset_merge_andn]
    rw [Nat.and_assoc, Nat.and_self, List.set_set]
  · exact bitset_update_spec s m bit w bitset_merge_xor hm hble hw
  · have hset := List.getElem?_set_eq_of_lt
      (w ^^^ 2 ^ (bit % BITS_PER_INDEX)) hidx
    have h2 := bitset_update_spec
      ⟨s.length, some (m.set (bit / BITS_PER_INDEX)
        (w ^^^ 2 ^ (bit % BITS_PER_INDEX)))⟩
      (m.set (bit / BITS_PER_INDEX) (w ^^^ 2 ^ (bit % BITS_PER_INDEX)))
      bit (w ^^^ 2 ^ (bit % BITS_PER_INDEX)) bitset_merge_xor rfl hble hset
    simp only [bitset_toggle]
    rw [h2]
    simp only [bitset_merge_xor]
    rw [Nat.xor_assoc, Nat.xor_self, Nat.xor_zero]
  · have hlen2 : bit / BITS_PER_INDEX < (m.set (bit / BITS_PER_INDEX)
        (w ^^^ 2 ^ (bit % BITS_PER_INDEX))).length := by
      rw [List.length_set]
      exact hidx
    have hset2 := List.getElem?_set_eq_of_lt w hlen2
    simp only [bitVal, List.getD_eq_getElem?_getD, hset2, hw, Option.getD_some]

/-- C7 witness: bit 1 of the length-33 set with words [5, 7]. -/
theorem C7_single_bit_algebra_witness :
    ∃ ms mr mt mtt : List Nat,
      bitset_set (some ⟨33, some [5, 7]⟩) 1
        = some (some ⟨33, some ms⟩, none) ∧
      bitVal ms 1 = true ∧
      bitset_set (some ⟨33, some ms⟩) 1 = some (some ⟨33, some ms⟩, none) ∧
      (∀ b2 : Nat, b2 ≠ 1 → bitVal ms b2 = bitVal [5, 7] b2) ∧
      bitset_reset (some ⟨33, some [5, 7]⟩) 1
        = some (some ⟨33, some mr⟩, none) ∧
      bitVal mr 1 = false ∧
      bitset_reset (some ⟨33, some mr⟩) 1
        = some (some ⟨33, some mr⟩, none) ∧
      bitset_toggle (some ⟨33, some [5, 7]⟩) 1
        = some (some ⟨33, some mt⟩, none) ∧
      bitset_toggle (some ⟨33, some mt⟩) 1
        = some (some ⟨33, some mtt⟩, none) ∧
      bitVal mtt 1 = bitVal [5, 7] 1 :=
  C7_single_bit_algebra ⟨33, some [5, 7]⟩ [5, 7] 1 rfl (by decide) (by decide)

/-- C8: `bitset_map_size` is the exact ceiling of `n / BITS_PER_INDEX` (the
least `k` with `n ≤ k * BITS_PER_INDEX`); `bitset_malloc n` has length `n`
and allocates exactly `bitset_map_size n` words, and a successful duplicate
or resize of a set satisfying the invariant
`word_count = bitset_map_size length` again satisfies it. -/
theorem C8_word_count_invariant (n : Nat) (raw : Nat → Nat) (s : bitset)
    (m : List Nat) (hm : s.map = some m)
    (hinv : m.length = bitset_map_size s.length) :
    ((bitset_malloc n raw).length = n ∧
      (bitset_malloc n raw).word_count = bitset_map_size n) ∧
    (n ≤ bitset_map_size n * BITS_PER_INDEX ∧
      ∀ k : Nat, n ≤ k * BITS_PER_INDEX → bitset_map_size n ≤ k) ∧
    (∀ d : bitset, bitset_dup (some s) raw = some (some d, none) →
      d.word_count = bitset_map_size d.length) ∧
    (∀ (allocOk : Bool) (s2 : bitset),
      bitset_resize (some s) n allocOk raw = (some s2, none) →
      s2.word_count = bitset_map_size s2.length) := by
  refine ⟨⟨rfl, ?_⟩, ⟨?_, ?_⟩, ?_, ?_⟩
  · simp [bitset_malloc, bitset.word_count]
  · exact (map_size_le_iff n (bitset_map_size n)).mp (Nat.le_refl _)
  · intro k hk
    exact (map_size_le_iff n k).mpr hk
  · intro d hd
    rw [bitset_dup_eq s m raw hm hinv] at hd
    obtain ⟨rfl⟩ : d = ⟨s.length, some m⟩ := by
      cases hd
      rfl
    simp only [bitset.word_count, Option.getD_some]
    exact hinv
  · intro allocOk s2 hres
    simp only [bitset_resize, hm] at hres
    by_cases hc : bitset_map_size n = m.length
    · rw [if_pos hc] at hres
      obtain ⟨rfl⟩ : s2 = ⟨n, some m⟩ := by
        cases hres
        rfl
      simp only [bitset.word_count, Option.getD_some]
      exact hc.symm
    · rw [if_neg hc] at hres
      cases allocOk with
      | false => simp at hres
      | true =>
        simp only [if_true] at hres
        obtain ⟨rfl⟩ : s2 = ⟨n, some (m.take (bitset_map_size n) ++
            ((List.range (bitset_map_size n)).map raw).drop m.length)⟩ := by
          cases hres
          rfl
        simp only [bitset.word_count, Option.getD_some, List.length_append,
          List.length_take, List.length_drop, List.length_map,
          List.length_range]
        omega

/-- C8 witness: creation at n = 33 and duplicate/resize of the one-word
length-32 set [5]. -/
theorem C8_word_count_invariant_witness :
    ((bitset_malloc 33 (fun i => 90 + i)).length = 33 ∧
      (bitset_malloc 33 (fun i => 90 + i)).word_count = bitset_map_size 33) ∧
    (33 ≤ bitset_map_size 33 * BITS_PER_INDEX ∧
      ∀ k : Nat, 33 ≤ k * BITS_PER_INDEX → bitset_map_size 33 ≤ k) ∧
    (∀ d : bitset,
      bitset_dup (some ⟨32, some [5]⟩) (fun i => 90 + i)
        = some (some d, none) →
      d.word_count = bitset_map_size d.length) ∧
    (∀ (allocOk : Bool) (s2 : bitset),
      bitset_resize (some ⟨32, some [5]⟩) 33 allocOk (fun i => 90 + i)
        = (some s2, none) →
      s2.word_count = bitset_map_size s2.length) :=
  C8_word_count_invariant 33 (fun i => 90 + i) ⟨32, some [5]⟩ [5] rfl
    (by decide)

end Lub
